import Mathlib

/-!
# Verification of the open-library-extractor pipeline

A shallow embedding of `src/main.rs`: a two-pass ETL that reads a
tab-separated dump (header line first), builds an ordered author-id → name
index in pass 1, streams edition records as ndJSON book objects in pass 2,
and finally drains the index as ndJSON author objects in key order.

Input rows are modelled as lists of string fields (the tab-splitting csv
reader is an out-of-scope collaborator; its header handling and its
unequal-field-count error are modelled explicitly).  JSON payload fields
are strings, parsed by an executable model of `serde_json`.  Machine
integer bounds (`u32`, `u64`) are explicit `Nat` bounds.  Rust panics
(out-of-bounds `record[i]`) and propagated errors (`?`) are modelled with
`Except`.
-/

/-- JSON values as parsed by the (out-of-scope, known-good) JSON library.
Non-integer numbers get a dedicated constructor `dec`: the program never
reads them (a `u64` field rejects them, unknown fields are ignored), so
they carry no payload. -/
inductive Json where
  | null : Json
  | bool : Bool → Json
  | int : Int → Json
  | dec : Json
  | str : String → Json
  | arr : List Json → Json
  | obj : List (String × Json) → Json

/-- UTF-8 encoded size of a character, as Rust's `len_utf8`. -/
def charSize (c : Char) : Nat :=
  if c.toNat < 128 then 1
  else if c.toNat < 2048 then 2
  else if c.toNat < 65536 then 3
  else 4

/-- UTF-8 encoded size of a character sequence: Rust's `str::len`. -/
def byteLen : List Char → Nat
  | [] => 0
  | c :: cs => charSize c + byteLen cs

/-- ASCII decimal digit test. -/
def isDigitC (c : Char) : Bool :=
  48 ≤ c.toNat && c.toNat ≤ 57

/-- Hexadecimal digit value, for JSON `\uXXXX` escapes. -/
def hexVal (c : Char) : Option Nat :=
  if 48 ≤ c.toNat && c.toNat ≤ 57 then some (c.toNat - 48)
  else if 97 ≤ c.toNat && c.toNat ≤ 102 then some (c.toNat - 87)
  else if 65 ≤ c.toNat && c.toNat ≤ 70 then some (c.toNat - 55)
  else none

/-- Skip JSON insignificant whitespace. -/
def skipWs : List Char → List Char
  | c :: cs =>
    if c.toNat = 32 || c.toNat = 9 || c.toNat = 10 || c.toNat = 13 then skipWs cs
    else c :: cs
  | [] => []

/-- Parse the body of a JSON string (after the opening quote), handling the
escape sequences accepted by the JSON grammar, including surrogate pairs. -/
def pStringBody : List Char → Option (List Char × List Char)
  | [] => none
  | c :: cs =>
    if c.toNat = 34 then some ([], cs)
    else if c.toNat = 92 then
      match cs with
      | [] => none
      | e :: cs' =>
        if e.toNat = 34 || e.toNat = 92 || e.toNat = 47 then
          (pStringBody cs').map (fun (body, rest) => (e :: body, rest))
        else if e = 'b' then
          (pStringBody cs').map (fun (body, rest) => (Char.ofNat 8 :: body, rest))
        else if e = 'f' then
          (pStringBody cs').map (fun (body, rest) => (Char.ofNat 12 :: body, rest))
        else if e = 'n' then
          (pStringBody cs').map (fun (body, rest) => (Char.ofNat 10 :: body, rest))
        else if e = 'r' then
          (pStringBody cs').map (fun (body, rest) => (Char.ofNat 13 :: body, rest))
        else if e = 't' then
          (pStringBody cs').map (fun (body, rest) => (Char.ofNat 9 :: body, rest))
        else if e = 'u' then
          match cs' with
          | h1 :: h2 :: h3 :: h4 :: cs'' =>
            match hexVal h1, hexVal h2, hexVal h3, hexVal h4 with
            | some a, some b, some c1, some d =>
              let v := ((a * 16 + b) * 16 + c1) * 16 + d
              if 55296 ≤ v && v < 56320 then
                -- high surrogate: must be followed by an escaped low surrogate
                match cs'' with
                | u1 :: u2 :: g1 :: g2 :: g3 :: g4 :: cs3 =>
                  if u1.toNat = 92 && u2 = 'u' then
                    match hexVal g1, hexVal g2, hexVal g3, hexVal g4 with
                    | some a2, some b2, some c2, some d2 =>
                      let w := ((a2 * 16 + b2) * 16 + c2) * 16 + d2
                      if 56320 ≤ w && w < 57344 then
                        let cp := 65536 + (v - 55296) * 1024 + (w - 56320)
                        (pStringBody cs3).map
                          (fun (body, rest) => (Char.ofNat cp :: body, rest))
                      else none
                    | _, _, _, _ => none
                  else none
                | _ => none
              else if 56320 ≤ v && v < 57344 then none
              else (pStringBody cs'').map
                (fun (body, rest) => (Char.ofNat v :: body, rest))
            | _, _, _, _ => none
          | _ => none
        else none
    else (pStringBody cs).map (fun (body, rest) => (c :: body, rest))

/-- Numeric value of a digit sequence. -/
def digitsToNat (acc : Nat) : List Char → Nat
  | [] => acc
  | c :: cs => digitsToNat (acc * 10 + (c.toNat - 48)) cs

/-- Parse a JSON number.  Pure integers produce `Json.int`; a fraction or
exponent part produces the opaque `Json.dec`. -/
def pNumber (cs : List Char) : Option (Json × List Char) :=
  let (neg, cs1) := match cs with
    | c :: r => if c.toNat = 45 then (true, r) else (false, cs)
    | [] => (false, cs)
  let (ds, cs2) := cs1.span isDigitC
  if ds.isEmpty then none
  else if ds.length > 1 && ds.headD 'x' = '0' then none
  else
    let intVal : Int := if neg then -(digitsToNat 0 ds : Int) else (digitsToNat 0 ds : Int)
    match cs2 with
    | c :: r =>
      if c.toNat = 46 then
        let (fs, cs3) := r.span isDigitC
        if fs.isEmpty then none
        else
          match cs3 with
          | e :: r2 =>
            if e = 'e' || e = 'E' then
              let (cs4) := match r2 with
                | s :: r3 => if s.toNat = 43 || s.toNat = 45 then r3 else r2
                | [] => r2
              let (es, cs5) := cs4.span isDigitC
              if es.isEmpty then none else some (Json.dec, cs5)
            else some (Json.dec, cs3)
          | [] => some (Json.dec, cs3)
      else if c = 'e' || c = 'E' then
        let (cs4) := match r with
          | s :: r3 => if s.toNat = 43 || s.toNat = 45 then r3 else r
          | [] => r
        let (es, cs5) := cs4.span isDigitC
        if es.isEmpty then none else some (Json.dec, cs5)
      else some (Json.int intVal, cs2)
    | [] => some (Json.int intVal, cs2)

/-- Intermediate results of the fuel-indexed JSON parser. -/
inductive PRes where
  | v : Json → PRes
  | items : List Json → PRes
  | fields : List (String × Json) → PRes

/-- Parsing modes: a single value, the tail of an array, the tail of an
object. -/
inductive PMode where
  | val : PMode
  | items : PMode
  | fields : PMode

/-- Fuel-indexed recursive-descent JSON parser (model of the JSON text
grammar accepted by the out-of-scope JSON library).  The fuel only bounds
nesting/iteration so that recursion is structural; callers supply enough. -/
def pGo : Nat → PMode → List Char → Option (PRes × List Char)
  | 0, _, _ => none
  | f + 1, PMode.val, cs =>
    match skipWs cs with
    | [] => none
    | c :: rest =>
      if c = 'n' then
        match rest with
        | 'u' :: 'l' :: 'l' :: r => some (PRes.v Json.null, r)
        | _ => none
      else if c = 't' then
        match rest with
        | 'r' :: 'u' :: 'e' :: r => some (PRes.v (Json.bool true), r)
        | _ => none
      else if c = 'f' then
        match rest with
        | 'a' :: 'l' :: 's' :: 'e' :: r => some (PRes.v (Json.bool false), r)
        | _ => none
      else if c.toNat = 34 then
        (pStringBody rest).map (fun (body, r) => (PRes.v (Json.str (String.mk body)), r))
      else if c.toNat = 91 then
        match skipWs rest with
        | d :: r2 =>
          if d.toNat = 93 then some (PRes.v (Json.arr []), r2)
          else
            match pGo f PMode.items rest with
            | some (PRes.items xs, r3) => some (PRes.v (Json.arr xs), r3)
            | _ => none
        | [] => none
      else if c.toNat = 123 then
        match skipWs rest with
        | d :: r2 =>
          if d.toNat = 125 then some (PRes.v (Json.obj []), r2)
          else
            match pGo f PMode.fields rest with
            | some (PRes.fields kvs, r3) => some (PRes.v (Json.obj kvs), r3)
            | _ => none
        | [] => none
      else if c.toNat = 45 || isDigitC c then
        (pNumber (c :: rest)).map (fun (j, r) => (PRes.v j, r))
      else none
  | f + 1, PMode.items, cs =>
    match pGo f PMode.val cs with
    | some (PRes.v j, r) =>
      (match skipWs r with
       | d :: r2 =>
         if d.toNat = 44 then
           match pGo f PMode.items r2 with
           | some (PRes.items xs, r3) => some (PRes.items (j :: xs), r3)
           | _ => none
         else if d.toNat = 93 then some (PRes.items [j], r2)
         else none
       | [] => none)
    | _ => none
  | f + 1, PMode.fields, cs =>
    match skipWs cs with
    | c :: rest =>
      if c.toNat = 34 then
        match pStringBody rest with
        | some (key, r1) =>
          (match skipWs r1 with
           | d :: r2 =>
             if d.toNat = 58 then
               match pGo f PMode.val r2 with
               | some (PRes.v j, r3) =>
                 (match skipWs r3 with
                  | e :: r4 =>
                    if e.toNat = 44 then
                      match pGo f PMode.fields r4 with
                      | some (PRes.fields kvs, r5) =>
                        some (PRes.fields ((String.mk key, j) :: kvs), r5)
                      | _ => none
                    else if e.toNat = 125 then
                      some (PRes.fields [(String.mk key, j)], r4)
                    else none
                  | [] => none)
               | _ => none
             else none
           | [] => none)
        | none => none
      else none
    | [] => none

/-- Model of `serde_json::from_str`'s text-to-value phase: parse a complete
JSON document, requiring the whole input to be consumed. -/
def jparse (s : String) : Option Json :=
  match pGo (2 * s.data.length + 4) PMode.val s.data with
  | some (PRes.v j, rest) =>
    match skipWs rest with
    | [] => some j
    | _ :: _ => none
  | _ => none

/-- First binding of a field name in a JSON object. -/
def lookupField (name : String) : List (String × Json) → Option Json
  | [] => none
  | (k, j) :: rest => if k = name then some j else lookupField name rest

/-- Deserialize a JSON value as a string (`Cow<str>` target). -/
def jStr? : Json → Option String
  | Json.str s => some s
  | _ => none

/-- Deserialize a JSON value as a list of strings (`Vec<Cow<str>>`). -/
def jStrList? : Json → Option (List String)
  | Json.arr xs => xs.mapM jStr?
  | _ => none

/-- Deserialize a JSON value as a `u64`. -/
def jU64? : Json → Option Nat
  | Json.int i => if 0 ≤ i ∧ i < (18446744073709551616 : Int) then some i.toNat else none
  | _ => none

/-- Deserialize an `InAuthorKey` (`{ key: Cow<str> }`): an object with a
required string field `key`; unknown fields are ignored. -/
def jAuthorKey? : Json → Option String
  | Json.obj fs =>
    match lookupField "key" fs with
    | some j => jStr? j
    | none => none
  | _ => none

/-- Optional struct field (`Option<T>` target): absent or `null` gives
`none`; present but failing `f` fails the whole deserialization. -/
def optField (fs : List (String × Json)) (name : String) (f : Json → Option α) :
    Option (Option α) :=
  match lookupField name fs with
  | none => some none
  | some Json.null => some none
  | some j => (f j).map some

/-- Required struct field: absent fails the deserialization. -/
def reqField (fs : List (String × Json)) (name : String) (f : Json → Option α) :
    Option α :=
  match lookupField name fs with
  | some j => f j
  | none => none

/-- Model of `serde_json::from_str::<InAuthor>`: an object with a required
string field `name` (unknown fields ignored).  Returns the name. -/
def parseInAuthor (s : String) : Option String :=
  match jparse s with
  | some (Json.obj fs) => reqField fs "name" jStr?
  | _ => none

/-- The deserialized edition payload (`InBook` in the source).  The three
fields the program parses but never reads (`publishers`, `physical_format`,
`subtitle`) still participate in deserialization failure. -/
structure InBook where
  title : String
  numberOfPages : Option Nat
  publishDate : Option String
  authors : Option (List String)
  identifiers : Option (Option (List String))
  subjects : Option (List String)

/-- Model of `serde_json::from_str::<InBook>`: required `title`, optional
`publishers`, `physical_format`, `subtitle`, `number_of_pages`,
`publish_date`, `authors` (list of `{key}` objects), `identifiers`
(object with optional `goodreads` list), `subjects`. -/
def parseInBook (s : String) : Option InBook :=
  match jparse s with
  | some (Json.obj fs) =>
    match optField fs "publishers" jStrList? with
    | none => none
    | some _ =>
      match optField fs "physical_format" jStr? with
      | none => none
      | some _ =>
        match optField fs "subtitle" jStr? with
        | none => none
        | some _ =>
          match reqField fs "title" jStr? with
          | none => none
          | some title =>
            match optField fs "number_of_pages" jU64? with
            | none => none
            | some np =>
              match optField fs "publish_date" jStr? with
              | none => none
              | some pd =>
                match optField fs "authors"
                    (fun j => match j with
                      | Json.arr xs => xs.mapM jAuthorKey?
                      | _ => none) with
                | none => none
                | some auth =>
                  match optField fs "identifiers"
                      (fun j => match j with
                        | Json.obj gs => optField gs "goodreads" jStrList?
                        | _ => none) with
                  | none => none
                  | some ids =>
                    match optField fs "subjects" jStrList? with
                    | none => none
                    | some subj =>
                      some ⟨title, np, pd, auth, ids, subj⟩
  | _ => none

/-- Boolean model of Rust's `str::starts_with` for the prefixes used here. -/
def myStarts (p s : String) : Bool := p.data.isPrefixOf s.data

/-- Model of Rust's `str::strip_prefix`: the remainder after the prefix,
or `none` when the string does not begin with it. -/
def stripPre (p s : String) : Option String :=
  if myStarts p s then some (String.mk (s.data.drop p.data.length)) else none

/-- Model of Rust's `str::parse::<u32>`: an optional leading `+`, then one
or more ASCII digits, value within `u32` range. -/
def parseU32C (cs : List Char) : Option Nat :=
  let ds := match cs with
    | c :: r => if c.toNat = 43 then r else cs
    | [] => cs
  if ds.isEmpty then none
  else if ds.all isDigitC then
    let v := digitsToNat 0 ds
    if v < 4294967296 then some v else none
  else none

/-- Model of Rust's `str::get(k..)` phrased as "drop the first `k` bytes":
`some` exactly when `k` lands on a character boundary (including the end of
the string), returning the byte suffix. -/
def bSuffix : Nat → List Char → Option (List Char)
  | 0, cs => some cs
  | _ + 1, [] => none
  | k + 1, c :: rest =>
    if charSize c ≤ k + 1 then bSuffix (k + 1 - charSize c) rest else none

/-- Model of the source's publish-year heuristic
`publish_date.and_then(|s| s.get(s.len() - 4..).and_then(|s| s.parse().ok()))`.
The `usize` subtraction wraps in release builds when the string is shorter
than 4 bytes, making `get` return `None`; that is the `b < 4` branch. -/
def publishYearOf (pd : Option String) : Option Nat :=
  pd.bind fun s =>
    let b := byteLen s.data
    if b < 4 then none
    else (bSuffix (b - 4) s.data).bind parseU32C

/-- Lowercase hexadecimal digit, as the JSON serializer emits. -/
def hexDigit (n : Nat) : Char :=
  if n < 10 then Char.ofNat (48 + n) else Char.ofNat (87 + n)

/-- JSON string escaping of one character, as the (out-of-scope) JSON
serializer: quote, backslash, and control characters below 0x20. -/
def escChar (c : Char) : List Char :=
  if c.toNat = 34 then [Char.ofNat 92, Char.ofNat 34]
  else if c.toNat = 92 then [Char.ofNat 92, Char.ofNat 92]
  else if c.toNat < 32 then
    if c.toNat = 8 then [Char.ofNat 92, 'b']
    else if c.toNat = 9 then [Char.ofNat 92, 't']
    else if c.toNat = 10 then [Char.ofNat 92, 'n']
    else if c.toNat = 12 then [Char.ofNat 92, 'f']
    else if c.toNat = 13 then [Char.ofNat 92, 'r']
    else [Char.ofNat 92, 'u', '0', '0', hexDigit (c.toNat / 16), hexDigit (c.toNat % 16)]
  else [c]

/-- A JSON string literal: quoted and escaped. -/
def jquote (s : String) : String :=
  String.mk (Char.ofNat 34 :: s.data.foldr (fun c acc => escChar c ++ acc) [Char.ofNat 34])

/-- The only value shapes the program ever serializes: strings, unsigned
integers, and arrays of strings. -/
inductive OutVal where
  | vstr : String → OutVal
  | vnum : Nat → OutVal
  | varr : List String → OutVal

/-- Serialize one output value. -/
def serializeOutVal : OutVal → String
  | OutVal.vstr s => jquote s
  | OutVal.vnum n => toString n
  | OutVal.varr xs => "[" ++ String.intercalate "," (xs.map jquote) ++ "]"

/-- Serialize an object with the given fields in order, as the JSON
serializer writes a struct. -/
def serializeObjLine (fields : List (String × OutVal)) : String :=
  "\x7b" ++
    String.intercalate "," (fields.map (fun p => jquote p.1 ++ ":" ++ serializeOutVal p.2)) ++
  "\x7d"

/-- The serialized fields of `OutObject::Book`, in declaration order, with
the internal tag `type` first and the `skip_serializing_if` omissions:
empty vectors and absent options produce no field at all. -/
def bookFields (id name : String) (authors : List String) (py np : Option Nat)
    (subjects goodreads : List String) : List (String × OutVal) :=
  [("type", OutVal.vstr "book"), ("id", OutVal.vstr id), ("name", OutVal.vstr name)]
  ++ (if authors.isEmpty then [] else [("authors", OutVal.varr authors)])
  ++ (match py with
      | some y => [("publish_year", OutVal.vnum y)]
      | none => [])
  ++ (match np with
      | some n => [("number_of_pages", OutVal.vnum n)]
      | none => [])
  ++ (if subjects.isEmpty then [] else [("subjects", OutVal.varr subjects)])
  ++ (if goodreads.isEmpty then [] else [("goodreads", OutVal.varr goodreads)])

/-- One serialized `OutObject::Book` line (without the trailing newline). -/
def bookLineStr (id name : String) (authors : List String) (py np : Option Nat)
    (subjects goodreads : List String) : String :=
  serializeObjLine (bookFields id name authors py np subjects goodreads)

/-- One serialized `OutObject::Author` line (without the trailing newline). -/
def authorLine (id name : String) : String :=
  serializeObjLine [("type", OutVal.vstr "author"), ("id", OutVal.vstr id),
    ("name", OutVal.vstr name)]

/-- Strict lexicographic order on character sequences by code point.  On
valid UTF-8 this coincides with the byte-wise `memcmp` order in which the
LMDB-backed index iterates its keys, because UTF-8 preserves code-point
order. -/
def lexLt : List Char → List Char → Bool
  | [], [] => false
  | [], _ :: _ => true
  | _ :: _, [] => false
  | a :: as, b :: bs =>
    if a.toNat < b.toNat then true
    else if b.toNat < a.toNat then false
    else lexLt as bs

/-- Key order of the index. -/
def keyLt (a b : String) : Bool := lexLt a.data b.data

/-- The author index: the temporary directory backing it plus its entries,
kept sorted by `keyLt` with pairwise-distinct keys (the ordered key-value
store).  The directory name never influences the stored data. -/
structure Index where
  dir : String
  entries : List (String × String)

/-- Upsert into the sorted entry list (the store's `put`): inserts at the
ordered position, replacing an existing binding of the same key. -/
def insEntries (k v : String) : List (String × String) → List (String × String)
  | [] => [(k, v)]
  | (k', v') :: rest =>
    if keyLt k k' then (k, v) :: (k', v') :: rest
    else if k = k' then (k, v) :: rest
    else (k', v') :: insEntries k v rest

/-- The store's `put` on the index. -/
def idxInsert (k v : String) (i : Index) : Index :=
  Index.mk i.dir (insEntries k v i.entries)

/-- The store's `get`: exact-key lookup in the entry list. -/
def idxLookupE : List (String × String) → String → Option String
  | [], _ => none
  | (k', v) :: rest, k => if k' = k then some v else idxLookupE rest k

/-- The ways the modelled run can abort: the reader's unequal-field-count
error propagated by `?`, or a Rust panic from an out-of-bounds `record[i]`. -/
inductive RunErr where
  | rowLengthMismatch : RunErr
  | outOfBounds : RunErr
deriving DecidableEq

/-- One step of the author-reference resolution closure in the source's
`flat_map`: strip the `/authors/` prefix (`None` drops the reference), then
look the key up through the storage layer, transposing so that a storage
error survives and a missing key drops the reference. -/
def resolveStep (get : String → Except ε (Option String)) (key : String) :
    Option (Except ε String) :=
  match stripPre "/authors/" key with
  | none => none
  | some k =>
    match get k with
    | Except.error e => some (Except.error e)
    | Except.ok none => none
    | Except.ok (some v) => some (Except.ok v)

/-- Model of `collect::<Result<Vec<_>, _>>`: first error wins, otherwise the list. -/
def collectExcept : List (Except ε α) → Except ε (List α)
  | [] => Except.ok []
  | Except.error e :: _ => Except.error e
  | Except.ok a :: rest => (collectExcept rest).map (a :: ·)

/-- The source's author resolution: `flat_map` the per-key step over the
listed references and collect, aborting on a storage-layer error. -/
def resolveAuthors (get : String → Except ε (Option String)) (keys : List String) :
    Except ε (List String) :=
  collectExcept (keys.filterMap (resolveStep get))

/-- Specification-side view of a pass-1 row: the stripped author id and
parsed name of a qualifying row (field 1 carries the `/authors/` prefix and
field 4 deserializes as an author payload), `none` otherwise. -/
def qualifyAuthor (row : List String) : Option (String × String) :=
  match row.get? 1 with
  | none => none
  | some f1 =>
    match stripPre "/authors/" f1 with
    | none => none
    | some aid =>
      match row.get? 4 with
      | none => none
      | some f4 => (parseInAuthor f4).map (fun n => (aid, n))

/-- Pass 1 (the author index builder), lines 114-124 of the source: for
each row the reader first enforces the header's field count, then
`record[1]` is read (panicking when absent), filtered on the `/authors/`
prefix, `record[4]` is read (panicking when absent) and deserialized; a
parse failure skips the row, success upserts into the index. -/
def pass1Go (expected : Nat) (idx : Index) : List (List String) → Except RunErr Index
  | [] => Except.ok idx
  | row :: rest =>
    if row.length ≠ expected then Except.error RunErr.rowLengthMismatch
    else
      match row.get? 1 with
      | none => Except.error RunErr.outOfBounds
      | some f1 =>
        match stripPre "/authors/" f1 with
        | none => pass1Go expected idx rest
        | some aid =>
          match row.get? 4 with
          | none => Except.error RunErr.outOfBounds
          | some f4 =>
            match parseInAuthor f4 with
            | none => pass1Go expected idx rest
            | some name => pass1Go expected (idxInsert aid name idx) rest

/-- The `goodreads` derivation: `identifiers.into_iter().flat_map(|i| i.goodreads).flatten()`. -/
def goodreadsOf (b : InBook) : List String :=
  match b.identifiers with
  | some (some g) => g
  | _ => []

/-- The serialized book line built from a qualifying edition row's stripped
id, parsed payload and resolved author names. -/
def mkBookLine (bid : String) (b : InBook) (authors : List String) : String :=
  bookLineStr bid b.title authors (publishYearOf b.publishDate) b.numberOfPages
    (b.subjects.getD []) (goodreadsOf b)

/-- Pass 2 (the edition transformer), lines 135-171 of the source: enforce
the field count, read `record[0]` and require the edition tag, read
`record[1]` and require the `/books/` prefix, read `record[4]` and
deserialize (failure skips the row), resolve the author references against
the committed index (a storage error aborts), and emit one serialized book
line. -/
def pass2Go (expected : Nat) (es : List (String × String)) :
    List (List String) → Except RunErr (List String)
  | [] => Except.ok []
  | row :: rest =>
    if row.length ≠ expected then Except.error RunErr.rowLengthMismatch
    else
      match row.get? 0 with
      | none => Except.error RunErr.outOfBounds
      | some f0 =>
        if f0 = "/type/edition" then
          match row.get? 1 with
          | none => Except.error RunErr.outOfBounds
          | some f1 =>
            match stripPre "/books/" f1 with
            | none => pass2Go expected es rest
            | some bid =>
              match row.get? 4 with
              | none => Except.error RunErr.outOfBounds
              | some f4 =>
                match parseInBook f4 with
                | none => pass2Go expected es rest
                | some b =>
                  match resolveAuthors (fun k => Except.ok (idxLookupE es k))
                      (b.authors.getD []) with
                  | Except.error e => Except.error e
                  | Except.ok authors =>
                    match pass2Go expected es rest with
                    | Except.error e => Except.error e
                    | Except.ok rest' => Except.ok (mkBookLine bid b authors :: rest')
        else pass2Go expected es rest

/-- The whole program on one parsed dump (`main`, minus the out-of-scope
argument parsing and decompression): the first line is the header fixing
the expected field count, pass 1 builds and commits the index in a fresh
temporary directory, pass 2 streams book lines, then every index entry is
emitted as an author line in key order.  The result is the ordered list of
stdout lines (each written with a trailing newline by the sink). -/
def runProgram (tmpDir : String) (lines : List (List String)) :
    Except RunErr (List String) :=
  match lines with
  | [] => Except.ok []
  | header :: rows =>
    match pass1Go header.length (Index.mk tmpDir []) rows with
    | Except.error e => Except.error e
    | Except.ok idx =>
      match pass2Go header.length idx.entries rows with
      | Except.error e => Except.error e
      | Except.ok books =>
        Except.ok (books ++ idx.entries.map (fun p => authorLine p.1 p.2))

/-- Specification-side view of one pass-2 row against a committed entry
list: the emitted book line of a qualifying edition row, `none` otherwise.
Author references resolve purely: strip the prefix, then look up. -/
def okBody (es : List (String × String)) (row : List String) : Option String :=
  match row.get? 0 with
  | none => none
  | some f0 =>
    if f0 = "/type/edition" then
      match row.get? 1 with
      | none => none
      | some f1 =>
        match stripPre "/books/" f1 with
        | none => none
        | some bid =>
          match row.get? 4 with
          | none => none
          | some f4 =>
            match parseInBook f4 with
            | none => none
            | some b =>
              some (mkBookLine bid b
                ((b.authors.getD []).filterMap
                  (fun key => (stripPre "/authors/" key).bind (idxLookupE es))))
    else none

/-- Characters with equal code points are equal. -/
theorem charEq_of_toNat {c d : Char} (h : c.toNat = d.toNat) : c = d := by
  cases c; cases d
  simp only [Char.toNat] at h
  congr 1
  exact UInt32.ext h

/-- Transitivity of `lexLt`. -/
theorem lexLt_trans : ∀ (a b c : List Char),
    lexLt a b = true → lexLt b c = true → lexLt a c = true := by
  intro a
  induction a with
  | nil =>
    intro b c h₁ h₂
    cases b with
    | nil => simp [lexLt] at h₁
    | cons b bs =>
      cases c with
      | nil => simp [lexLt] at h₂
      | cons c cs => simp [lexLt]
  | cons a as ih =>
    intro b c h₁ h₂
    cases b with
    | nil => simp [lexLt] at h₁
    | cons b bs =>
      cases c with
      | nil => simp [lexLt] at h₂
      | cons c cs =>
        by_cases h1 : a.toNat < b.toNat
        · by_cases h2 : b.toNat < c.toNat
          · have h3 : a.toNat < c.toNat := Nat.lt_trans h1 h2
            simp [lexLt, h3]
          · by_cases h3 : c.toNat < b.toNat
            · simp [lexLt, h2, h3] at h₂
            · have h4 : a.toNat < c.toNat := by omega
              simp [lexLt, h4]
        · by_cases h1' : b.toNat < a.toNat
          · simp [lexLt, h1, h1'] at h₁
          · simp only [lexLt, if_neg h1, if_neg h1'] at h₁
            by_cases h2 : b.toNat < c.toNat
            · have h4 : a.toNat < c.toNat := by omega
              simp [lexLt, h4]
            · by_cases h3 : c.toNat < b.toNat
              · simp [lexLt, h2, h3] at h₂
              · simp only [lexLt, if_neg h2, if_neg h3] at h₂
                have h4 : ¬ a.toNat < c.toNat := by omega
                have h5 : ¬ c.toNat < a.toNat := by omega
                simp only [lexLt, if_neg h4, if_neg h5]
                exact ih bs cs h₁ h₂

/-- Distinct character sequences are `lexLt`-comparable. -/
theorem lexLt_connex : ∀ (a b : List Char), a ≠ b →
    lexLt a b = true ∨ lexLt b a = true := by
  intro a
  induction a with
  | nil =>
    intro b hne
    cases b with
    | nil => exact absurd rfl hne
    | cons b bs => left; simp [lexLt]
  | cons a as ih =>
    intro b hne
    cases b with
    | nil => right; simp [lexLt]
    | cons b bs =>
      rcases Nat.lt_trichotomy a.toNat b.toNat with h | h | h
      · left; simp [lexLt, h]
      · have hab : a = b := charEq_of_toNat h
        subst hab
        have htl : as ≠ bs := by
          intro hh; exact hne (by rw [hh])
        rcases ih bs htl with h' | h'
        · left
          simp only [lexLt, Nat.lt_irrefl, if_neg (by omega : ¬ a.toNat < a.toNat)]
          exact h'
        · right
          simp only [lexLt, Nat.lt_irrefl, if_neg (by omega : ¬ a.toNat < a.toNat)]
          exact h'
      · right; simp [lexLt, h]

/-- Transitivity of `keyLt`. -/
theorem keyLt_trans {a b c : String} (h₁ : keyLt a b = true) (h₂ : keyLt b c = true) :
    keyLt a c = true :=
  lexLt_trans a.data b.data c.data h₁ h₂

/-- Distinct strings are `keyLt`-comparable. -/
theorem keyLt_connex {a b : String} (h : a ≠ b) :
    keyLt a b = true ∨ keyLt b a = true :=
  lexLt_connex a.data b.data (fun hd => h (String.toList_inj.mp hd))

/-- Entry order of the index: strictly increasing keys. -/
def entLt (p q : String × String) : Prop := keyLt p.1 q.1 = true

/-- Lookup after upsert: the new binding wins on its key, everything else
is unchanged. -/
theorem lookup_insEntries (k v k' : String) :
    ∀ es, idxLookupE (insEntries k v es) k' =
      if k = k' then some v else idxLookupE es k' := by
  intro es
  induction es with
  | nil => simp [insEntries, idxLookupE]
  | cons p rest ih =>
    obtain ⟨a, w⟩ := p
    by_cases hlt : keyLt k a
    · simp [insEntries, hlt, idxLookupE]
    · by_cases heq : k = a
      · subst heq
        simp only [insEntries, if_neg hlt, if_pos rfl]
        by_cases hk : k = k'
        · simp [idxLookupE, hk]
        · simp [idxLookupE, hk]
      · simp only [insEntries, if_neg hlt, if_neg heq, idxLookupE]
        by_cases hk : a = k'
        · have hkk' : ¬ k = k' := by rw [← hk]; exact heq
          simp [hk, hkk']
        · simp [hk, ih]

/-- Every element of the upserted list is the new pair or an old one. -/
theorem mem_insEntries {p : String × String} (k v : String) :
    ∀ es, p ∈ insEntries k v es → p = (k, v) ∨ p ∈ es := by
  intro es
  induction es with
  | nil => simp [insEntries]
  | cons q rest ih =>
    obtain ⟨a, w⟩ := q
    by_cases hlt : keyLt k a
    · simp only [insEntries, if_pos hlt]
      intro h
      rcases List.mem_cons.mp h with h | h
      · left; exact h
      · right; exact h
    · by_cases heq : k = a
      · simp only [insEntries, if_neg hlt, if_pos heq]
        intro h
        rcases List.mem_cons.mp h with h | h
        · left; exact h
        · right; exact List.mem_cons_of_mem _ h
      · simp only [insEntries, if_neg hlt, if_neg heq]
        intro h
        rcases List.mem_cons.mp h with h | h
        · right; exact h ▸ List.mem_cons_self _ _
        · rcases ih h with h | h
          · left; exact h
          · right; exact List.mem_cons_of_mem _ h

/-- The key set after upsert: the new key plus the old keys. -/
theorem keys_insEntries (x k v : String) :
    ∀ es, (x ∈ (insEntries k v es).map Prod.fst ↔ x = k ∨ x ∈ es.map Prod.fst) := by
  intro es
  induction es with
  | nil => simp [insEntries]
  | cons q rest ih =>
    obtain ⟨a, w⟩ := q
    by_cases hlt : keyLt k a
    · simp only [insEntries, if_pos hlt, List.map_cons, List.mem_cons]
    · by_cases heq : k = a
      · subst heq
        have he : insEntries k v ((k, w) :: rest) = (k, v) :: rest := by
          simp [insEntries, hlt]
        rw [he]
        simp only [List.map_cons, List.mem_cons]
        tauto
      · simp only [insEntries, if_neg hlt, if_neg heq, List.map_cons, List.mem_cons, ih]
        tauto

/-- Upsert preserves the sorted-entries invariant. -/
theorem pairwise_insEntries (k v : String) :
    ∀ es, List.Pairwise entLt es → List.Pairwise entLt (insEntries k v es) := by
  intro es
  induction es with
  | nil =>
    intro _
    simp [insEntries, List.pairwise_singleton]
  | cons q rest ih =>
    obtain ⟨a, w⟩ := q
    intro h
    rcases List.pairwise_cons.mp h with ⟨ha, hrest⟩
    by_cases hlt : keyLt k a
    · simp only [insEntries, if_pos hlt]
      refine List.pairwise_cons.mpr ⟨?_, h⟩
      intro q hq
      rcases List.mem_cons.mp hq with h' | h'
      · subst h'
        exact hlt
      · exact keyLt_trans hlt (ha q h')
    · by_cases heq : k = a
      · subst heq
        simp only [insEntries, if_neg hlt, if_pos rfl]
        exact List.pairwise_cons.mpr ⟨fun q hq => ha q hq, hrest⟩
      · simp only [insEntries, if_neg hlt, if_neg heq]
        refine List.pairwise_cons.mpr ⟨?_, ih hrest⟩
        intro q hq
        rcases mem_insEntries k v rest hq with h' | h'
        · subst h'
          rcases keyLt_connex heq with h'' | h''
          · exact absurd h'' hlt
          · exact h''
        · exact ha q h'

/-- A key has a binding exactly when it is among the stored keys. -/
theorem lookup_isSome_iff_mem (k : String) :
    ∀ es, (idxLookupE es k).isSome = true ↔ k ∈ es.map Prod.fst := by
  intro es
  induction es with
  | nil => simp [idxLookupE]
  | cons q rest ih =>
    obtain ⟨a, w⟩ := q
    by_cases h : a = k
    · subst h
      simp [idxLookupE]
    · simp only [idxLookupE, if_neg h, List.map_cons, List.mem_cons]
      rw [ih]
      constructor
      · exact fun hh => Or.inr hh
      · rintro (hh | hh)
        · exact absurd hh.symm h
        · exact hh

/-- The name recorded for key `k` after folding the qualifying rows over a
base lookup: the last qualifying row with that id wins, otherwise the base. -/
def lastFrom (base : Option String) (rows : List (List String)) (k : String) :
    Option String :=
  match (rows.filterMap qualifyAuthor).reverse.find? (fun p => p.1 == k) with
  | some p => some p.2
  | none => base

/-- A non-qualifying row does not change `lastFrom`. -/
theorem lastFrom_cons_none {row : List String} (h : qualifyAuthor row = none)
    (base : Option String) (rest : List (List String)) (k : String) :
    lastFrom base (row :: rest) k = lastFrom base rest k := by
  simp [lastFrom, List.filterMap_cons, h]

/-- A qualifying row updates the base binding of its id in `lastFrom`. -/
theorem lastFrom_cons_some {row : List String} {a n : String}
    (h : qualifyAuthor row = some (a, n))
    (base : Option String) (rest : List (List String)) (k : String) :
    lastFrom base (row :: rest) k =
      lastFrom (if a = k then some n else base) rest k := by
  simp only [lastFrom, List.filterMap_cons, h, List.reverse_cons, List.find?_append]
  cases hf : (List.filterMap qualifyAuthor rest).reverse.find? (fun p => p.1 == k) with
  | some p => simp [Option.or]
  | none =>
    by_cases hak : a = k
    · have hb : (a == k) = true := beq_iff_eq.mpr hak
      simp [Option.or, List.find?, hb, hak]
    · have hb : (a == k) = false := beq_eq_false_iff_ne.mpr hak
      simp [Option.or, List.find?, hb, hak]

/-- Pass 1 builds exactly the last-write-wins index of the qualifying rows:
it completes without error on well-formed rows, the final lookup of every
key is the `lastFrom` fold over the rows, sortedness is preserved, and the
key set is the base keys plus the qualifying ids. -/
theorem pass1Go_spec (expected : Nat) (h5 : 5 ≤ expected) :
    ∀ (rows : List (List String)) (d : String) (es : List (String × String)),
      (∀ r ∈ rows, r.length = expected) →
      ∃ es', pass1Go expected (Index.mk d es) rows = Except.ok (Index.mk d es') ∧
        (∀ k, idxLookupE es' k = lastFrom (idxLookupE es k) rows k) ∧
        (List.Pairwise entLt es → List.Pairwise entLt es') ∧
        (∀ k, k ∈ es'.map Prod.fst ↔
          (k ∈ es.map Prod.fst ∨ ∃ r ∈ rows, ∃ n, qualifyAuthor r = some (k, n))) := by
  intro rows
  induction rows with
  | nil =>
    intro d es _
    exact ⟨es, rfl, fun k => rfl, id, fun k => by simp⟩
  | cons row rest ih =>
    intro d es wf
    have hlen : row.length = expected := wf row (List.mem_cons_self _ _)
    have hwf' : ∀ r ∈ rest, r.length = expected :=
      fun r hr => wf r (List.mem_cons_of_mem _ hr)
    have hne : ¬ row.length ≠ expected := by omega
    cases hf1 : row.get? 1 with
    | none =>
      rw [List.get?_eq_none] at hf1
      omega
    | some f1 =>
      cases hstrip : stripPre "/authors/" f1 with
      | none =>
        have hq : qualifyAuthor row = none := by
          simp only [qualifyAuthor, hf1, hstrip]
        obtain ⟨es', hrun, hlook, hpw, hmem⟩ := ih d es hwf'
        refine ⟨es', ?_, ?_, hpw, ?_⟩
        · simp only [pass1Go, if_neg hne, hf1, hstrip]
          exact hrun
        · intro k
          rw [hlook k, lastFrom_cons_none hq]
        · intro k
          rw [hmem k]
          simp [List.mem_cons, exists_eq_or_imp, hq]
      | some aid =>
        cases hf4 : row.get? 4 with
        | none =>
          rw [List.get?_eq_none] at hf4
          omega
        | some f4 =>
          cases hparse : parseInAuthor f4 with
          | none =>
            have hq : qualifyAuthor row = none := by
              simp only [qualifyAuthor, hf1, hstrip, hf4, hparse, Option.map_none']
            obtain ⟨es', hrun, hlook, hpw, hmem⟩ := ih d es hwf'
            refine ⟨es', ?_, ?_, hpw, ?_⟩
            · simp only [pass1Go, if_neg hne, hf1, hstrip, hf4, hparse]
              exact hrun
            · intro k
              rw [hlook k, lastFrom_cons_none hq]
            · intro k
              rw [hmem k]
              simp [List.mem_cons, exists_eq_or_imp, hq]
          | some name =>
            have hq : qualifyAuthor row = some (aid, name) := by
              simp only [qualifyAuthor, hf1, hstrip, hf4, hparse, Option.map_some']
            obtain ⟨es', hrun, hlook, hpw, hmem⟩ := ih d (insEntries aid name es) hwf'
            refine ⟨es', ?_, ?_, ?_, ?_⟩
            · simp only [pass1Go, if_neg hne, hf1, hstrip, hf4, hparse]
              exact hrun
            · intro k
              rw [hlook k, lastFrom_cons_some hq]
              have : idxLookupE (insEntries aid name es) k =
                  if aid = k then some name else idxLookupE es k :=
                lookup_insEntries aid name k es
              rw [this]
            · intro hpw0
              exact hpw (pairwise_insEntries aid name es hpw0)
            · intro k
              rw [hmem k, keys_insEntries]
              simp only [List.mem_cons, exists_eq_or_imp, hq, Option.some.injEq,
                Prod.mk.injEq]
              constructor
              · rintro ((h | h) | h)
                · right; left; exact ⟨name, h.symm, rfl⟩
                · left; exact h
                · right; right; exact h
              · rintro (h | ⟨n, hn, _⟩ | h)
                · left; right; exact h
                · left; left; exact hn.symm
                · right; exact h

/-- Against the committed (pure) index, author resolution never errors and
returns exactly the in-order resolved names: strip the prefix, look up,
drop on either failure. -/
theorem resolveAuthors_pure {ε : Type} (es : List (String × String)) :
    ∀ keys : List String,
      resolveAuthors (fun k => (Except.ok (idxLookupE es k) : Except ε (Option String))) keys =
        Except.ok (keys.filterMap
          (fun key => (stripPre "/authors/" key).bind (idxLookupE es))) := by
  intro keys
  induction keys with
  | nil => rfl
  | cons key rest ih =>
    simp only [resolveAuthors, List.filterMap_cons] at ih ⊢
    cases hs : stripPre "/authors/" key with
    | none =>
      simp only [resolveStep, hs, Option.none_bind]
      exact ih
    | some k =>
      cases hl : idxLookupE es k with
      | none =>
        simp only [resolveStep, hs, hl, Option.some_bind]
        exact ih
      | some v =>
        simp only [resolveStep, hs, hl, Option.some_bind, collectExcept, ih, Except.map]

/-- A storage-layer error at the first reached lookup aborts the whole
resolution with that error. -/
theorem resolveAuthors_err {ε : Type} (get : String → Except ε (Option String)) :
    ∀ (pre : List String) (key : String) (post : List String) (k : String) (e : ε),
      stripPre "/authors/" key = some k → get k = Except.error e →
      (∀ x ∈ pre, ∀ e', resolveStep get x ≠ some (Except.error e')) →
      resolveAuthors get (pre ++ key :: post) = Except.error e := by
  intro pre
  induction pre with
  | nil =>
    intro key post k e hs hg _
    simp only [List.nil_append, resolveAuthors, List.filterMap_cons, resolveStep, hs, hg]
    rfl
  | cons x pre ih =>
    intro key post k e hs hg hpre
    have hx := hpre x (List.mem_cons_self _ _)
    have hpre' : ∀ y ∈ pre, ∀ e', resolveStep get y ≠ some (Except.error e') :=
      fun y hy => hpre y (List.mem_cons_of_mem _ hy)
    have ihr := ih key post k e hs hg hpre'
    simp only [resolveAuthors, List.cons_append, List.filterMap_cons] at ihr ⊢
    cases hstep : resolveStep get x with
    | none => simpa [hstep] using ihr
    | some r =>
      cases r with
      | error e' => exact absurd hstep (hx e')
      | ok v =>
        simp only [hstep, collectExcept, ihr, Except.map]

/-- Pass 2 on well-formed rows completes without error and emits exactly
the lines of the qualifying edition rows, in input order. -/
theorem pass2Go_spec (expected : Nat) (h5 : 5 ≤ expected) (es : List (String × String)) :
    ∀ rows : List (List String), (∀ r ∈ rows, r.length = expected) →
      pass2Go expected es rows = Except.ok (rows.filterMap (okBody es)) := by
  intro rows
  induction rows with
  | nil => intro _; rfl
  | cons row rest ih =>
    intro wf
    have hlen : row.length = expected := wf row (List.mem_cons_self _ _)
    have hne : ¬ row.length ≠ expected := by omega
    have ihr := ih (fun r hr => wf r (List.mem_cons_of_mem _ hr))
    cases hf0 : row.get? 0 with
    | none =>
      rw [List.get?_eq_none] at hf0
      omega
    | some f0 =>
      by_cases he : f0 = "/type/edition"
      · cases hf1 : row.get? 1 with
        | none =>
          rw [List.get?_eq_none] at hf1
          omega
        | some f1 =>
          cases hs : stripPre "/books/" f1 with
          | none =>
            have hok : okBody es row = none := by
              simp only [okBody, hf0, if_pos he, hf1, hs]
            simp only [pass2Go, if_neg hne, hf0, if_pos he, hf1, hs,
              List.filterMap_cons, hok]
            exact ihr
          | some bid =>
            cases hf4 : row.get? 4 with
            | none =>
              rw [List.get?_eq_none] at hf4
              omega
            | some f4 =>
              cases hp : parseInBook f4 with
              | none =>
                have hok : okBody es row = none := by
                  simp only [okBody, hf0, if_pos he, hf1, hs, hf4, hp]
                simp only [pass2Go, if_neg hne, hf0, if_pos he, hf1, hs, hf4, hp,
                  List.filterMap_cons, hok]
                exact ihr
              | some b =>
                have hok : okBody es row = some (mkBookLine bid b
                    ((b.authors.getD []).filterMap
                      (fun key => (stripPre "/authors/" key).bind (idxLookupE es)))) := by
                  simp only [okBody, hf0, if_pos he, hf1, hs, hf4, hp]
                simp only [pass2Go, if_neg hne, hf0, if_pos he, hf1, hs, hf4, hp,
                  @resolveAuthors_pure RunErr es (b.authors.getD []), ihr,
                  List.filterMap_cons, hok]
      · have hok : okBody es row = none := by
          simp only [okBody, hf0, if_neg he]
        simp only [pass2Go, if_neg hne, hf0, if_neg he, List.filterMap_cons, hok]
        exact ihr

/-- Structure of a complete well-formed run: pass 1 yields a committed
sorted index characterized by `lastFrom`, pass 2 emits the qualifying
edition lines in order, and the author lines of the index entries follow. -/
theorem runProgram_spec (d : String) (hdr : List String) (rows : List (List String))
    (h5 : 5 ≤ hdr.length) (wf : ∀ r ∈ rows, r.length = hdr.length) :
    ∃ es, pass1Go hdr.length (Index.mk d []) rows = Except.ok (Index.mk d es) ∧
      runProgram d (hdr :: rows) =
        Except.ok (rows.filterMap (okBody es) ++ es.map (fun p => authorLine p.1 p.2)) ∧
      List.Pairwise entLt es ∧
      (∀ k, idxLookupE es k = lastFrom none rows k) ∧
      (∀ k, k ∈ es.map Prod.fst ↔ ∃ r ∈ rows, ∃ n, qualifyAuthor r = some (k, n)) := by
  obtain ⟨es, hrun, hlook, hpw, hmem⟩ := pass1Go_spec hdr.length h5 rows d [] wf
  refine ⟨es, hrun, ?_, hpw List.Pairwise.nil, ?_, ?_⟩
  · simp only [runProgram, hrun, pass2Go_spec hdr.length h5 es rows wf]
  · intro k
    simpa [idxLookupE] using hlook k
  · intro k
    simpa using hmem k

/-- Every character occupies at least one byte. -/
theorem charSize_pos (c : Char) : 1 ≤ charSize c := by
  unfold charSize
  split_ifs <;> omega

/-- ASCII digits are single-byte. -/
theorem charSize_of_digit {c : Char} (h : isDigitC c = true) : charSize c = 1 := by
  simp only [isDigitC, Bool.and_eq_true, decide_eq_true_eq] at h
  unfold charSize
  rw [if_pos (by omega)]

/-- Byte length distributes over append. -/
theorem byteLen_append (a b : List Char) : byteLen (a ++ b) = byteLen a + byteLen b := by
  induction a with
  | nil => simp [byteLen]
  | cons c as ih =>
    show charSize c + byteLen (as ++ b) = charSize c + byteLen as + byteLen b
    rw [ih]
    omega

/-- All-single-byte sequences have byte length equal to character count. -/
theorem byteLen_eq_length {cs : List Char} (h : ∀ c ∈ cs, charSize c = 1) :
    byteLen cs = cs.length := by
  induction cs with
  | nil => rfl
  | cons c as ih =>
    simp only [byteLen, List.length_cons, h c (List.mem_cons_self _ _),
      ih fun x hx => h x (List.mem_cons_of_mem _ hx)]
    omega

/-- A successfully `u32`-parsed character sequence consists of single-byte
characters (an optional `+` and ASCII digits). -/
theorem parseU32C_digits : ∀ (cs : List Char) (y : Nat), parseU32C cs = some y →
    ∀ c ∈ cs, charSize c = 1 := by
  intro cs y h c hc
  unfold parseU32C at h
  cases cs with
  | nil => simp at hc
  | cons a r =>
    by_cases ha : a.toNat = 43
    · simp only [if_pos ha] at h
      by_cases hre : r.isEmpty
      · simp [hre] at h
      · by_cases hall : r.all isDigitC
        · rcases List.mem_cons.mp hc with rfl | hcr
          · unfold charSize
            rw [if_pos (by omega)]
          · exact charSize_of_digit (List.all_eq_true.mp hall c hcr)
        · simp [hre, hall] at h
    · simp only [if_neg ha, List.isEmpty_cons] at h
      by_cases hall : (a :: r).all isDigitC
      · exact charSize_of_digit (List.all_eq_true.mp hall c hc)
      · simp [hall] at h

/-- Dropping exactly the byte length of a prefix lands on its boundary. -/
theorem bSuffix_eq_some_of (xs : List Char) :
    ∀ ys : List Char, bSuffix (byteLen xs) (xs ++ ys) = some ys := by
  induction xs with
  | nil =>
    intro ys
    simp [byteLen, bSuffix]
  | cons c xs ih =>
    intro ys
    have h1 : 1 ≤ charSize c := charSize_pos c
    have hb : byteLen (c :: xs) = charSize c + byteLen xs := rfl
    rw [hb]
    obtain ⟨m, hm⟩ : ∃ m, charSize c + byteLen xs = m + 1 :=
      ⟨charSize c + byteLen xs - 1, by omega⟩
    rw [hm]
    simp only [List.cons_append, bSuffix]
    rw [if_pos (by omega)]
    have h2 : m + 1 - charSize c = byteLen xs := by omega
    rw [h2]
    exact ih ys

/-- A successful byte-drop splits the sequence at a prefix of exactly that
byte length. -/
theorem bSuffix_some_split : ∀ (cs : List Char) (k : Nat) (ys : List Char),
    bSuffix k cs = some ys → ∃ xs, cs = xs ++ ys ∧ byteLen xs = k := by
  intro cs
  induction cs with
  | nil =>
    intro k ys h
    cases k with
    | zero =>
      simp only [bSuffix, Option.some.injEq] at h
      exact ⟨[], by simp [h], rfl⟩
    | succ k => simp [bSuffix] at h
  | cons c rest ih =>
    intro k ys h
    cases k with
    | zero =>
      simp only [bSuffix, Option.some.injEq] at h
      exact ⟨[], by simp [h], rfl⟩
    | succ k =>
      simp only [bSuffix] at h
      by_cases hcs : charSize c ≤ k + 1
      · rw [if_pos hcs] at h
        obtain ⟨xs, hx1, hx2⟩ := ih (k + 1 - charSize c) ys h
        refine ⟨c :: xs, by simp [hx1], ?_⟩
        simp only [byteLen, hx2]
        omega
      · rw [if_neg hcs] at h
        exact absurd h (by simp)

/-- The publish-year heuristic, characterized: a year is produced exactly
when a `publish_date` is present, has at least 4 characters, and its last
4 characters parse as a `u32`; the byte-level `get(len - 4..)` of the
source coincides with this character-level reading because a parseable
suffix is all-ASCII. -/
theorem publishYear_iff : ∀ (pd : Option String) (y : Nat),
    publishYearOf pd = some y ↔
      ∃ s, pd = some s ∧ 4 ≤ s.data.length ∧
        parseU32C (s.data.drop (s.data.length - 4)) = some y := by
  intro pd y
  cases pd with
  | none => simp [publishYearOf]
  | some s =>
    simp only [publishYearOf, Option.some_bind, Option.some.injEq]
    constructor
    · intro h
      by_cases hb : byteLen s.data < 4
      · rw [if_pos hb] at h
        exact absurd h (by simp)
      · rw [if_neg hb] at h
        cases hbs : bSuffix (byteLen s.data - 4) s.data with
        | none =>
          rw [hbs] at h
          exact absurd h (by simp)
        | some ys =>
          rw [hbs, Option.some_bind] at h
          obtain ⟨xs, hsplit, hlen⟩ := bSuffix_some_split s.data _ ys hbs
          have hdig := parseU32C_digits ys y h
          have hby : byteLen ys = ys.length := byteLen_eq_length hdig
          have happ : byteLen s.data = byteLen xs + byteLen ys := by
            rw [hsplit, byteLen_append]
          have hys4 : byteLen ys = 4 := by omega
          have hlen4 : ys.length = 4 := by omega
          have hdlen : s.data.length = xs.length + ys.length := by
            rw [hsplit]
            simp
          refine ⟨s, rfl, by omega, ?_⟩
          have hxslen : s.data.length - 4 = xs.length := by omega
          rw [hxslen, hsplit, List.drop_left]
          exact h
    · rintro ⟨s', hs', hlen, hparse⟩
      subst hs'
      have hsplit : s.data = s.data.take (s.data.length - 4) ++
          s.data.drop (s.data.length - 4) := (List.take_append_drop _ _).symm
      have hdig := parseU32C_digits _ y hparse
      have hylen : (s.data.drop (s.data.length - 4)).length = 4 := by
        rw [List.length_drop]
        omega
      have hby : byteLen (s.data.drop (s.data.length - 4)) = 4 := by
        rw [byteLen_eq_length hdig, hylen]
      have happ : byteLen s.data = byteLen (s.data.take (s.data.length - 4)) + 4 := by
        conv =>
          lhs
          rw [hsplit]
        rw [byteLen_append, hby]
      have hnb : ¬ byteLen s.data < 4 := by omega
      rw [if_neg hnb]
      have hkey : byteLen s.data - 4 = byteLen (s.data.take (s.data.length - 4)) := by
        omega
      have hof := bSuffix_eq_some_of (s.data.take (s.data.length - 4))
        (s.data.drop (s.data.length - 4))
      rw [← hsplit] at hof
      rw [hkey, hof, Option.some_bind]
      exact hparse

/-- Success of `stripPre` is exactly the prefix test. -/
theorem stripPre_isSome (p s : String) : (stripPre p s).isSome = myStarts p s := by
  unfold stripPre
  by_cases h : myStarts p s <;> simp [h]

/-- A book line is emitted for a row exactly when field 0 is the edition
tag, field 1 carries the `/books/` prefix, and field 4 deserializes as an
edition payload. -/
theorem okBody_isSome_iff (es : List (String × String)) (row : List String) :
    (okBody es row).isSome = true ↔
      (row.get? 0 = some "/type/edition" ∧
       (∃ f1, row.get? 1 = some f1 ∧ myStarts "/books/" f1 = true) ∧
       (∃ f4 b, row.get? 4 = some f4 ∧ parseInBook f4 = some b)) := by
  cases hf0 : row.get? 0 with
  | none =>
    have hok : okBody es row = none := by simp only [okBody, hf0]
    rw [hok]
    simp
  | some f0 =>
    by_cases he : f0 = "/type/edition"
    · cases hf1 : row.get? 1 with
      | none =>
        have hok : okBody es row = none := by simp only [okBody, hf0, if_pos he, hf1]
        rw [hok]
        simp
      | some f1 =>
        cases hs : stripPre "/books/" f1 with
        | none =>
          have hms : myStarts "/books/" f1 = false := by
            have := stripPre_isSome "/books/" f1
            rw [hs] at this
            simpa using this.symm
          have hok : okBody es row = none := by
            simp only [okBody, hf0, if_pos he, hf1, hs]
          rw [hok]
          simp [he, hms]
        | some bid =>
          have hms : myStarts "/books/" f1 = true := by
            have := stripPre_isSome "/books/" f1
            rw [hs] at this
            simpa using this.symm
          cases hf4 : row.get? 4 with
          | none =>
            have hok : okBody es row = none := by
              simp only [okBody, hf0, if_pos he, hf1, hs, hf4]
            rw [hok]
            simp [he, hms]
          | some f4 =>
            cases hp : parseInBook f4 with
            | none =>
              have hok : okBody es row = none := by
                simp only [okBody, hf0, if_pos he, hf1, hs, hf4, hp]
              rw [hok]
              simp [he, hms, hp]
            | some b =>
              have hok : okBody es row = some (mkBookLine bid b
                  ((b.authors.getD []).filterMap
                    (fun key => (stripPre "/authors/" key).bind (idxLookupE es)))) := by
                simp only [okBody, hf0, if_pos he, hf1, hs, hf4, hp]
              rw [hok]
              simp only [Option.isSome_some, true_iff, Option.some.injEq]
              exact ⟨he, ⟨f1, rfl, hms⟩, f4, b, rfl, hp⟩
    · have hok : okBody es row = none := by simp only [okBody, hf0, if_neg he]
      rw [hok]
      simp [he]

/-- A row whose field count differs from the header's aborts pass 1 with
the reader's unequal-lengths error, no matter what follows it. -/
theorem pass1Go_abort (expected : Nat) (h5 : 5 ≤ expected) :
    ∀ (pre : List (List String)) (bad : List String) (post : List (List String))
      (d : String) (es : List (String × String)),
      (∀ r ∈ pre, r.length = expected) → bad.length ≠ expected →
      pass1Go expected (Index.mk d es) (pre ++ bad :: post) =
        Except.error RunErr.rowLengthMismatch := by
  intro pre
  induction pre with
  | nil =>
    intro bad post d es _ hbad
    simp only [List.nil_append, pass1Go, if_pos hbad]
  | cons row pre ih =>
    intro bad post d es hpre hbad
    have hlen : row.length = expected := hpre row (List.mem_cons_self _ _)
    have hne : ¬ row.length ≠ expected := by omega
    have hpre' : ∀ r ∈ pre, r.length = expected :=
      fun r hr => hpre r (List.mem_cons_of_mem _ hr)
    cases hf1 : row.get? 1 with
    | none =>
      rw [List.get?_eq_none] at hf1
      omega
    | some f1 =>
      cases hstrip : stripPre "/authors/" f1 with
      | none =>
        simp only [List.cons_append, pass1Go, if_neg hne, hf1, hstrip]
        exact ih bad post d es hpre' hbad
      | some aid =>
        cases hf4 : row.get? 4 with
        | none =>
          rw [List.get?_eq_none] at hf4
          omega
        | some f4 =>
          cases hp : parseInAuthor f4 with
          | none =>
            simp only [List.cons_append, pass1Go, if_neg hne, hf1, hstrip, hf4, hp]
            exact ih bad post d es hpre' hbad
          | some name =>
            simp only [List.cons_append, pass1Go, if_neg hne, hf1, hstrip, hf4, hp]
            exact ih bad post d (insEntries aid name es) hpre' hbad

/-- When no row carries the `/authors/` prefix on field 1, pass 1 leaves
the index untouched (rows need only field 1 to exist). -/
theorem pass1Go_skipAll (expected : Nat) (h2 : 2 ≤ expected) :
    ∀ (rows : List (List String)) (d : String) (es : List (String × String)),
      (∀ r ∈ rows, r.length = expected) →
      (∀ r ∈ rows, ∀ f1, r.get? 1 = some f1 → myStarts "/authors/" f1 = false) →
      pass1Go expected (Index.mk d es) rows = Except.ok (Index.mk d es) := by
  intro rows
  induction rows with
  | nil => intro d es _ _; rfl
  | cons row rest ih =>
    intro d es wf hno
    have hlen : row.length = expected := wf row (List.mem_cons_self _ _)
    have hne : ¬ row.length ≠ expected := by omega
    cases hf1 : row.get? 1 with
    | none =>
      rw [List.get?_eq_none] at hf1
      omega
    | some f1 =>
      have hms : myStarts "/authors/" f1 = false := hno row (List.mem_cons_self _ _) f1 hf1
      have hstrip : stripPre "/authors/" f1 = none := by
        simp [stripPre, hms]
      simp only [pass1Go, if_neg hne, hf1, hstrip]
      exact ih d es (fun r hr => wf r (List.mem_cons_of_mem _ hr))
        (fun r hr => hno r (List.mem_cons_of_mem _ hr))

/-- With short rows (fewer than 5 fields), any row whose field 1 carries
the `/authors/` prefix makes pass 1 reach the out-of-bounds `record[4]`
access and panic. -/
theorem pass1Go_panic (expected : Nat) (h2 : 2 ≤ expected) (h5 : expected < 5) :
    ∀ (rows : List (List String)) (d : String) (es : List (String × String)),
      (∀ r ∈ rows, r.length = expected) →
      (∃ r ∈ rows, ∃ f1, r.get? 1 = some f1 ∧ myStarts "/authors/" f1 = true) →
      pass1Go expected (Index.mk d es) rows = Except.error RunErr.outOfBounds := by
  intro rows
  induction rows with
  | nil =>
    intro d es _ hex
    simp at hex
  | cons row rest ih =>
    intro d es wf hex
    have hlen : row.length = expected := wf row (List.mem_cons_self _ _)
    have hne : ¬ row.length ≠ expected := by omega
    cases hf1 : row.get? 1 with
    | none =>
      rw [List.get?_eq_none] at hf1
      omega
    | some f1 =>
      cases hms : myStarts "/authors/" f1 with
      | true =>
        have hstrip : ∃ aid, stripPre "/authors/" f1 = some aid := by
          simp [stripPre, hms]
        obtain ⟨aid, hstrip⟩ := hstrip
        have hf4 : row.get? 4 = none := by
          rw [List.get?_eq_none]
          omega
        simp only [pass1Go, if_neg hne, hf1, hstrip, hf4]
      | false =>
        have hstrip : stripPre "/authors/" f1 = none := by
          simp [stripPre, hms]
        simp only [pass1Go, if_neg hne, hf1, hstrip]
        obtain ⟨r, hr, g1, hg1, hgs⟩ := hex
        rcases List.mem_cons.mp hr with rfl | hr'
        · rw [hf1] at hg1
          injection hg1 with hg1
          subst hg1
          rw [hms] at hgs
          exact absurd hgs (by simp)
        · exact ih d es (fun r hr => wf r (List.mem_cons_of_mem _ hr)) ⟨r, hr', g1, hg1, hgs⟩

/-- When no row is an edition row with a `/books/`-prefixed identifier,
pass 2 emits nothing. -/
theorem pass2Go_skipAll (expected : Nat) (h2 : 2 ≤ expected)
    (es : List (String × String)) :
    ∀ rows : List (List String),
      (∀ r ∈ rows, r.length = expected) →
      (∀ r ∈ rows, ¬(r.get? 0 = some "/type/edition" ∧
        ∃ f1, r.get? 1 = some f1 ∧ myStarts "/books/" f1 = true)) →
      pass2Go expected es rows = Except.ok [] := by
  intro rows
  induction rows with
  | nil => intro _ _; rfl
  | cons row rest ih =>
    intro wf hno
    have hlen : row.length = expected := wf row (List.mem_cons_self _ _)
    have hne : ¬ row.length ≠ expected := by omega
    have ihr := ih (fun r hr => wf r (List.mem_cons_of_mem _ hr))
      (fun r hr => hno r (List.mem_cons_of_mem _ hr))
    cases hf0 : row.get? 0 with
    | none =>
      rw [List.get?_eq_none] at hf0
      omega
    | some f0 =>
      by_cases he : f0 = "/type/edition"
      · cases hf1 : row.get? 1 with
        | none =>
          rw [List.get?_eq_none] at hf1
          omega
        | some f1 =>
          cases hms : myStarts "/books/" f1 with
          | true =>
            exact absurd ⟨he ▸ hf0, f1, hf1, hms⟩ (hno row (List.mem_cons_self _ _))
          | false =>
            have hstrip : stripPre "/books/" f1 = none := by
              simp [stripPre, hms]
            simp only [pass2Go, if_neg hne, hf0, if_pos he, hf1, hstrip]
            exact ihr
      · simp only [pass2Go, if_neg hne, hf0, if_neg he]
        exact ihr

/-- With short rows, any edition row with a `/books/`-prefixed identifier
makes pass 2 reach the out-of-bounds `record[4]` access and panic. -/
theorem pass2Go_panic (expected : Nat) (h2 : 2 ≤ expected) (h5 : expected < 5)
    (es : List (String × String)) :
    ∀ rows : List (List String),
      (∀ r ∈ rows, r.length = expected) →
      (∃ r ∈ rows, r.get? 0 = some "/type/edition" ∧
        ∃ f1, r.get? 1 = some f1 ∧ myStarts "/books/" f1 = true) →
      pass2Go expected es rows = Except.error RunErr.outOfBounds := by
  intro rows
  induction rows with
  | nil =>
    intro _ hex
    simp at hex
  | cons row rest ih =>
    intro wf hex
    have hlen : row.length = expected := wf row (List.mem_cons_self _ _)
    have hne : ¬ row.length ≠ expected := by omega
    have ihx := ih (fun r hr => wf r (List.mem_cons_of_mem _ hr))
    cases hf0 : row.get? 0 with
    | none =>
      rw [List.get?_eq_none] at hf0
      omega
    | some f0 =>
      by_cases he : f0 = "/type/edition"
      · cases hf1 : row.get? 1 with
        | none =>
          rw [List.get?_eq_none] at hf1
          omega
        | some f1 =>
          cases hms : myStarts "/books/" f1 with
          | true =>
            have hstrip : ∃ bid, stripPre "/books/" f1 = some bid := by
              simp [stripPre, hms]
            obtain ⟨bid, hstrip⟩ := hstrip
            have hf4 : row.get? 4 = none := by
              rw [List.get?_eq_none]
              omega
            simp only [pass2Go, if_neg hne, hf0, if_pos he, hf1, hstrip, hf4]
          | false =>
            have hstrip : stripPre "/books/" f1 = none := by
              simp [stripPre, hms]
            simp only [pass2Go, if_neg hne, hf0, if_pos he, hf1, hstrip]
            obtain ⟨r, hr, hg0, g1, hg1, hgs⟩ := hex
            rcases List.mem_cons.mp hr with rfl | hr'
            · rw [hf1] at hg1
              injection hg1 with hg1
              subst hg1
              rw [hms] at hgs
              exact absurd hgs (by simp)
            · exact ihx ⟨r, hr', hg0, g1, hg1, hgs⟩
      · simp only [pass2Go, if_neg hne, hf0, if_neg he]
        obtain ⟨r, hr, hg0, g1, hg1, hgs⟩ := hex
        rcases List.mem_cons.mp hr with rfl | hr'
        · rw [hf0] at hg0
          injection hg0 with hg0
          exact absurd hg0 he
        · exact ihx ⟨r, hr', hg0, g1, hg1, hgs⟩

/-- The entries pass 1 produces do not depend on the temporary directory
backing the index. -/
theorem pass1Go_dir (expected : Nat) :
    ∀ (rows : List (List String)) (d₁ d₂ : String) (es : List (String × String)),
      (pass1Go expected (Index.mk d₁ es) rows).map Index.entries =
      (pass1Go expected (Index.mk d₂ es) rows).map Index.entries := by
  intro rows
  induction rows with
  | nil => intro d₁ d₂ es; rfl
  | cons row rest ih =>
    intro d₁ d₂ es
    by_cases hlen : row.length ≠ expected
    · simp only [pass1Go, if_pos hlen]
    · cases hf1 : row.get? 1 with
      | none =>
        simp only [pass1Go, if_neg hlen, hf1]
      | some f1 =>
        cases hstrip : stripPre "/authors/" f1 with
        | none =>
          simp only [pass1Go, if_neg hlen, hf1, hstrip]
          exact ih d₁ d₂ es
        | some aid =>
          cases hf4 : row.get? 4 with
          | none =>
            simp only [pass1Go, if_neg hlen, hf1, hstrip, hf4]
          | some f4 =>
            cases hp : parseInAuthor f4 with
            | none =>
              simp only [pass1Go, if_neg hlen, hf1, hstrip, hf4, hp]
              exact ih d₁ d₂ es
            | some name =>
              simp only [pass1Go, if_neg hlen, hf1, hstrip, hf4, hp]
              exact ih d₁ d₂ (insEntries aid name es)

/-- C1: on the dump with a header line, one author row
(`/type/author`, `/authors/OL1A`, …, `{"name":"Jane Doe"}`) and one edition
row (`/type/edition`, `/books/OL1M`, …,
`{"title":"Book","authors":[{"key":"/authors/OL1A"}],"publish_date":"1999"}`),
the program writes exactly two lines, the book line then the author line,
with exactly the claimed JSON texts. -/
theorem end_to_end_scenario :
    runProgram "tmp"
      [["type", "key", "revision", "last_modified", "JSON"],
       ["/type/author", "/authors/OL1A", "3", "2008-04-01", "\x7b\"name\":\"Jane Doe\"\x7d"],
       ["/type/edition", "/books/OL1M", "4", "2009-01-01",
        "\x7b\"title\":\"Book\",\"authors\":[\x7b\"key\":\"/authors/OL1A\"\x7d],\"publish_date\":\"1999\"\x7d"]] =
    Except.ok
      ["\x7b\"type\":\"book\",\"id\":\"OL1M\",\"name\":\"Book\",\"authors\":[\"Jane Doe\"],\"publish_year\":1999\x7d",
       "\x7b\"type\":\"author\",\"id\":\"OL1A\",\"name\":\"Jane Doe\"\x7d"] := rfl

/-- C2: after pass 1 (which never consults field 0 — `qualifyAuthor` reads
only fields 1 and 4), the index holds an entry for a key iff some row's
field 1 carries the `/authors/` prefix and its field 4 deserializes as an
author payload; each key has exactly one entry (keys are strictly sorted),
its value is the last qualifying row's name (`lastFrom`, upsert
last-write-wins), and non-qualifying rows create no entry and raise no
error. -/
theorem pass1_index_characterization (d : String) (expected : Nat)
    (rows : List (List String)) (h5 : 5 ≤ expected)
    (wf : ∀ r ∈ rows, r.length = expected) :
    ∃ idx, pass1Go expected (Index.mk d []) rows = Except.ok idx ∧
      (∀ k, idxLookupE idx.entries k = lastFrom none rows k) ∧
      List.Pairwise entLt idx.entries ∧
      (∀ k, k ∈ idx.entries.map Prod.fst ↔
        ∃ r ∈ rows, ∃ n, qualifyAuthor r = some (k, n)) := by
  obtain ⟨es, hrun, hlook, hpw, hmem⟩ := pass1Go_spec expected h5 rows d [] wf
  refine ⟨Index.mk d es, hrun, ?_, hpw List.Pairwise.nil, ?_⟩
  · intro k
    simpa [idxLookupE] using hlook k
  · intro k
    simpa using hmem k

theorem pass1_index_characterization_witness :
    ∃ idx, pass1Go 5 (Index.mk "tmp" [])
        [["/type/author", "/authors/OL1A", "3", "t", "\x7b\"name\":\"A\"\x7d"],
         ["/type/author", "/authors/OL1A", "4", "t", "\x7b\"name\":\"B\"\x7d"]] =
      Except.ok idx ∧
      (∀ k, idxLookupE idx.entries k = lastFrom none
        [["/type/author", "/authors/OL1A", "3", "t", "\x7b\"name\":\"A\"\x7d"],
         ["/type/author", "/authors/OL1A", "4", "t", "\x7b\"name\":\"B\"\x7d"]] k) ∧
      List.Pairwise entLt idx.entries ∧
      (∀ k, k ∈ idx.entries.map Prod.fst ↔
        ∃ r ∈ [["/type/author", "/authors/OL1A", "3", "t", "\x7b\"name\":\"A\"\x7d"],
               ["/type/author", "/authors/OL1A", "4", "t", "\x7b\"name\":\"B\"\x7d"]],
          ∃ n, qualifyAuthor r = some (k, n)) :=
  pass1_index_characterization "tmp" 5 _ (by decide) (by decide)

/-- C3: edition author references resolve by stripping the `/authors/`
prefix and looking the stripped key up: prefix-less references and unknown
keys are dropped, resolved names keep the listing order (so the result is
a `filterMap`, of length at most the input's), and a storage-layer error
at a reached lookup aborts the whole resolution with that error. -/
theorem author_reference_resolution (es : List (String × String)) (keys : List String) :
    (resolveAuthors (fun k => (Except.ok (idxLookupE es k) : Except RunErr (Option String))) keys =
      Except.ok (keys.filterMap
        (fun key => (stripPre "/authors/" key).bind (idxLookupE es)))) ∧
    ((keys.filterMap (fun key => (stripPre "/authors/" key).bind (idxLookupE es))).length ≤
      keys.length) ∧
    (∀ (ε : Type) (get : String → Except ε (Option String)) (pre : List String)
        (key : String) (post : List String) (k : String) (e : ε),
      stripPre "/authors/" key = some k → get k = Except.error e →
      (∀ x ∈ pre, ∀ e', resolveStep get x ≠ some (Except.error e')) →
      resolveAuthors get (pre ++ key :: post) = Except.error e) :=
  ⟨resolveAuthors_pure es keys, List.length_filterMap_le _ _,
   fun _ get pre key post k e hs hg hp => resolveAuthors_err get pre key post k e hs hg hp⟩

theorem author_reference_resolution_witness :
    resolveAuthors
      (fun k => (Except.ok (idxLookupE [("OL1A", "Jane")] k) : Except RunErr (Option String)))
      ["/authors/OL1A", "nope", "/authors/OLX"] = Except.ok ["Jane"] := by
  have h := (author_reference_resolution [("OL1A", "Jane")]
    ["/authors/OL1A", "nope", "/authors/OLX"]).1
  rw [h]
  rfl

/-- C4: a publish year is emitted iff `publish_date` is present and its
trailing 4 characters parse as a `u32`, in which case the year is that
number; `"1987"` and `"March 1987"` give 1987, while an absent date or one
shorter than 4 characters gives no year and never a failure. -/
theorem publish_year_heuristic :
    (∀ (pd : Option String) (y : Nat),
      publishYearOf pd = some y ↔
        ∃ s, pd = some s ∧ 4 ≤ s.data.length ∧
          parseU32C (s.data.drop (s.data.length - 4)) = some y) ∧
    publishYearOf (some "1987") = some 1987 ∧
    publishYearOf (some "March 1987") = some 1987 ∧
    publishYearOf none = none ∧
    (∀ s : String, s.data.length < 4 → publishYearOf (some s) = none) := by
  refine ⟨publishYear_iff, rfl, rfl, rfl, ?_⟩
  intro s hs
  cases h : publishYearOf (some s) with
  | none => rfl
  | some y =>
    obtain ⟨s', hs', hlen, _⟩ := (publishYear_iff (some s) y).mp h
    injection hs' with hh
    subst hh
    omega

theorem publish_year_heuristic_witness :
    publishYearOf (some "ab") = none :=
  publish_year_heuristic.2.2.2.2 "ab" (by decide)

/-- C5 counterexample: a row with 2 fields under a 5-field header makes
the run abort with the reader's unequal-lengths error — it is not skipped
and the pass does not continue to the author row that follows. -/
theorem wrong_field_count_not_skipped_cex :
    runProgram "tmp"
      [["type", "key", "revision", "last_modified", "JSON"],
       ["only", "two"],
       ["/type/author", "/authors/OL1A", "3", "t", "\x7b\"name\":\"A\"\x7d"]] =
    Except.error RunErr.rowLengthMismatch := rfl

/-- C5 (amended): a row whose field count differs from the header's aborts
the whole run with the reader's unequal-lengths error; it is not silently
skipped. -/
theorem wrong_field_count_aborts (d : String) (hdr bad : List String)
    (pre post : List (List String)) (h5 : 5 ≤ hdr.length)
    (hpre : ∀ r ∈ pre, r.length = hdr.length) (hbad : bad.length ≠ hdr.length) :
    runProgram d (hdr :: (pre ++ bad :: post)) =
      Except.error RunErr.rowLengthMismatch := by
  have h := pass1Go_abort hdr.length h5 pre bad post d [] hpre hbad
  simp only [runProgram, h]

theorem wrong_field_count_aborts_witness :
    runProgram "tmp"
      [["type", "key", "revision", "last_modified", "JSON"], ["x"]] =
      Except.error RunErr.rowLengthMismatch :=
  wrong_field_count_aborts "tmp" ["type", "key", "revision", "last_modified", "JSON"]
    ["x"] [] [] (by decide) (by decide) (by decide)

/-- C6: pass 2 emits a book line for a row iff field 0 is exactly
`/type/edition`, field 1 begins with `/books/`, and field 4 deserializes
as an edition payload; all other rows produce no output, and the author
section of the run is computed from the pass-1 index alone. -/
theorem edition_emission_characterization (d : String) (hdr : List String)
    (rows : List (List String)) (h5 : 5 ≤ hdr.length)
    (wf : ∀ r ∈ rows, r.length = hdr.length) :
    ∃ es, pass1Go hdr.length (Index.mk d []) rows = Except.ok (Index.mk d es) ∧
      pass2Go hdr.length es rows = Except.ok (rows.filterMap (okBody es)) ∧
      (∀ (es' : List (String × String)) (row : List String),
        (okBody es' row).isSome = true ↔
          (row.get? 0 = some "/type/edition" ∧
           (∃ f1, row.get? 1 = some f1 ∧ myStarts "/books/" f1 = true) ∧
           (∃ f4 b, row.get? 4 = some f4 ∧ parseInBook f4 = some b))) ∧
      runProgram d (hdr :: rows) =
        Except.ok (rows.filterMap (okBody es) ++ es.map (fun p => authorLine p.1 p.2)) := by
  obtain ⟨es, h1, h2, _, _, _⟩ := runProgram_spec d hdr rows h5 wf
  exact ⟨es, h1, pass2Go_spec hdr.length h5 es rows wf,
    fun es' row => okBody_isSome_iff es' row, h2⟩

theorem edition_emission_characterization_witness :
    ∃ es, pass1Go 5 (Index.mk "tmp" [])
        [["/type/work", "/books/OL1M", "4", "t", "\x7b\"title\":\"T\"\x7d"]] =
      Except.ok (Index.mk "tmp" es) ∧
      pass2Go 5 es [["/type/work", "/books/OL1M", "4", "t", "\x7b\"title\":\"T\"\x7d"]] =
        Except.ok ([["/type/work", "/books/OL1M", "4", "t",
          "\x7b\"title\":\"T\"\x7d"]].filterMap (okBody es)) ∧
      (∀ (es' : List (String × String)) (row : List String),
        (okBody es' row).isSome = true ↔
          (row.get? 0 = some "/type/edition" ∧
           (∃ f1, row.get? 1 = some f1 ∧ myStarts "/books/" f1 = true) ∧
           (∃ f4 b, row.get? 4 = some f4 ∧ parseInBook f4 = some b))) ∧
      runProgram "tmp" (["type", "key", "revision", "last_modified", "JSON"] ::
          [["/type/work", "/books/OL1M", "4", "t", "\x7b\"title\":\"T\"\x7d"]]) =
        Except.ok (([["/type/work", "/books/OL1M", "4", "t",
          "\x7b\"title\":\"T\"\x7d"]].filterMap (okBody es)) ++
          es.map (fun p => authorLine p.1 p.2)) :=
  edition_emission_characterization "tmp" ["type", "key", "revision", "last_modified", "JSON"]
    [["/type/work", "/books/OL1M", "4", "t", "\x7b\"title\":\"T\"\x7d"]]
    (by decide) (by decide)

/-- C7: in a serialized book record, each optional array field (`authors`,
`subjects`, `goodreads`) appears among the object's keys iff its list is
non-empty, and each optional scalar (`publish_year`, `number_of_pages`)
appears iff present; the emitted line is the serialization of exactly
these fields. -/
theorem book_optional_field_omission (bid bname : String) (authors : List String)
    (py np : Option Nat) (subjects goodreads : List String) :
    (bookLineStr bid bname authors py np subjects goodreads =
      serializeObjLine (bookFields bid bname authors py np subjects goodreads)) ∧
    ("authors" ∈ (bookFields bid bname authors py np subjects goodreads).map Prod.fst ↔
      authors ≠ []) ∧
    ("publish_year" ∈ (bookFields bid bname authors py np subjects goodreads).map Prod.fst ↔
      py ≠ none) ∧
    ("number_of_pages" ∈ (bookFields bid bname authors py np subjects goodreads).map Prod.fst ↔
      np ≠ none) ∧
    ("subjects" ∈ (bookFields bid bname authors py np subjects goodreads).map Prod.fst ↔
      subjects ≠ []) ∧
    ("goodreads" ∈ (bookFields bid bname authors py np subjects goodreads).map Prod.fst ↔
      goodreads ≠ []) := by
  refine ⟨rfl, ?_, ?_, ?_, ?_, ?_⟩ <;>
    cases authors <;> cases py <;> cases np <;> cases subjects <;> cases goodreads <;>
      simp [bookFields]

theorem book_optional_field_omission_witness :
    ¬ ("subjects" ∈ (bookFields "OL1M" "T" [] none none [] []).map Prod.fst) := by
  have h := (book_optional_field_omission "OL1M" "T" [] none none [] []).2.2.2.2.1
  intro hmem
  exact (h.mp hmem) rfl

/-- C8: on a well-formed run the output is all book lines followed by one
author line per index entry, the entries' keys strictly increasing in the
store's lexicographic order (so no entry is emitted twice and none is
filtered), and the key set is exactly the set of stripped ids of the
qualifying author rows. -/
theorem author_emission_bijection (d : String) (hdr : List String)
    (rows : List (List String)) (h5 : 5 ≤ hdr.length)
    (wf : ∀ r ∈ rows, r.length = hdr.length) :
    ∃ es, runProgram d (hdr :: rows) =
        Except.ok (rows.filterMap (okBody es) ++ es.map (fun p => authorLine p.1 p.2)) ∧
      List.Pairwise entLt es ∧
      (∀ k, k ∈ es.map Prod.fst ↔ ∃ r ∈ rows, ∃ n, qualifyAuthor r = some (k, n)) := by
  obtain ⟨es, _, h2, h3, _, h5'⟩ := runProgram_spec d hdr rows h5 wf
  exact ⟨es, h2, h3, h5'⟩

theorem author_emission_bijection_witness :
    ∃ es, runProgram "tmp" (["type", "key", "revision", "last_modified", "JSON"] ::
        [["/type/author", "/authors/OL2B", "3", "t", "\x7b\"name\":\"B\"\x7d"],
         ["/type/author", "/authors/OL1A", "3", "t", "\x7b\"name\":\"A\"\x7d"]]) =
        Except.ok (([["/type/author", "/authors/OL2B", "3", "t", "\x7b\"name\":\"B\"\x7d"],
          ["/type/author", "/authors/OL1A", "3", "t",
            "\x7b\"name\":\"A\"\x7d"]].filterMap (okBody es)) ++
          es.map (fun p => authorLine p.1 p.2)) ∧
      List.Pairwise entLt es ∧
      (∀ k, k ∈ es.map Prod.fst ↔
        ∃ r ∈ [["/type/author", "/authors/OL2B", "3", "t", "\x7b\"name\":\"B\"\x7d"],
               ["/type/author", "/authors/OL1A", "3", "t", "\x7b\"name\":\"A\"\x7d"]],
          ∃ n, qualifyAuthor r = some (k, n)) :=
  author_emission_bijection "tmp" ["type", "key", "revision", "last_modified", "JSON"]
    _ (by decide) (by decide)

/-- C9 counterexample: an input whose rows (matching the header's count)
have only 3 fields completes without any panic — the out-of-bounds access
is not reached when no row passes the prefix filters. -/
theorem short_rows_no_panic_cex :
    runProgram "tmp" [["a", "b", "c"], ["x", "y", "z"]] = Except.ok [] := rfl

/-- C9 (amended): the field accesses are unchecked, so with rows of fewer
than 5 fields the run panics exactly when an out-of-bounds access is
reached: any row whose field 1 carries `/authors/` makes pass 1 panic at
`record[4]`; failing that, any edition row whose field 1 carries `/books/`
makes pass 2 panic at `record[4]`; when neither filter ever fires, the run
completes normally (with empty output). -/
theorem field_access_panic_reachability (d : String) (hdr : List String)
    (rows : List (List String)) (h2 : 2 ≤ hdr.length) (h5 : hdr.length < 5)
    (wf : ∀ r ∈ rows, r.length = hdr.length) :
    ((∃ r ∈ rows, ∃ f1, r.get? 1 = some f1 ∧ myStarts "/authors/" f1 = true) →
      runProgram d (hdr :: rows) = Except.error RunErr.outOfBounds) ∧
    ((∀ r ∈ rows, ∀ f1, r.get? 1 = some f1 → myStarts "/authors/" f1 = false) →
      ((∃ r ∈ rows, r.get? 0 = some "/type/edition" ∧
          ∃ f1, r.get? 1 = some f1 ∧ myStarts "/books/" f1 = true) →
        runProgram d (hdr :: rows) = Except.error RunErr.outOfBounds) ∧
      ((∀ r ∈ rows, ¬(r.get? 0 = some "/type/edition" ∧
          ∃ f1, r.get? 1 = some f1 ∧ myStarts "/books/" f1 = true)) →
        runProgram d (hdr :: rows) = Except.ok [])) := by
  constructor
  · intro hex
    have h := pass1Go_panic hdr.length h2 h5 rows d [] wf hex
    simp only [runProgram, h]
  · intro hno
    have h1 := pass1Go_skipAll hdr.length (by omega) rows d [] wf hno
    constructor
    · intro hex
      have hp2 := pass2Go_panic hdr.length h2 h5 [] rows wf hex
      simp only [runProgram, h1, hp2]
    · intro hnone
      have hp2 := pass2Go_skipAll hdr.length h2 [] rows wf hnone
      simp only [runProgram, h1, hp2]
      rfl

theorem field_access_panic_reachability_witness :
    runProgram "tmp" (["a", "b", "c"] :: [["x", "/authors/OL1A", "z"]]) =
      Except.error RunErr.outOfBounds :=
  (field_access_panic_reachability "tmp" ["a", "b", "c"] [["x", "/authors/OL1A", "z"]]
    (by decide) (by decide) (by decide)).1
    ⟨["x", "/authors/OL1A", "z"], by decide, "/authors/OL1A", by decide, by decide⟩

/-- C10: the program is deterministic — its output is a function of the
parsed input alone; in particular the (environment-chosen) temporary
directory backing the index never influences the output. -/
theorem run_output_deterministic (d₁ d₂ : String) (lines₁ lines₂ : List (List String))
    (h : lines₁ = lines₂) : runProgram d₁ lines₁ = runProgram d₂ lines₂ := by
  subst h
  cases lines₁ with
  | nil => rfl
  | cons hdr rows =>
    have h := pass1Go_dir hdr.length rows d₁ d₂ []
    simp only [runProgram]
    cases h₁ : pass1Go hdr.length (Index.mk d₁ []) rows with
    | error e =>
      cases h₂ : pass1Go hdr.length (Index.mk d₂ []) rows with
      | error e' =>
        rw [h₁, h₂] at h
        simp only [Except.map] at h
        injection h with h
        rw [h]
      | ok i₂ =>
        rw [h₁, h₂] at h
        simp [Except.map] at h
    | ok i₁ =>
      cases h₂ : pass1Go hdr.length (Index.mk d₂ []) rows with
      | error e =>
        rw [h₁, h₂] at h
        simp [Except.map] at h
      | ok i₂ =>
        rw [h₁, h₂] at h
        simp only [Except.map] at h
        injection h with h
        dsimp only
        rw [h]

theorem run_output_deterministic_witness :
    runProgram "tmpdir-a"
      [["type", "key", "revision", "last_modified", "JSON"],
       ["/type/author", "/authors/OL1A", "3", "t", "\x7b\"name\":\"A\"\x7d"]] =
    runProgram "tmpdir-b"
      [["type", "key", "revision", "last_modified", "JSON"],
       ["/type/author", "/authors/OL1A", "3", "t", "\x7b\"name\":\"A\"\x7d"]] :=
  run_output_deterministic "tmpdir-a" "tmpdir-b" _ _ rfl
